import Mathlib

/-!
Verification development for the music_embedding package: a shallow
embedding of the interval codec (interval.py) and the pianoroll
transduction and RLE engine (embedder.py), with theorems settling the
behavioural claims about the code.

Conventions of the embedding:
  - Python integers and numpy int64 values are modelled as Int; numpy
    uint8 and int8 casts are modelled explicitly where they matter.
  - Pianorolls are List (List Int): rows are timesteps, 128 lanes each.
  - Interval sequences are List (List Int): rows of width 4.
  - Fallible methods return Except PyErr; the error constructors mirror
    the distinguishable Python exception kinds raised by the source.
-/

/-- Distinguishable error kinds raised by the source code:
valueError for ValueError, dimError for the IndexError raised on a wrong
second dimension, rangeError for the IndexError raised on out-of-MIDI-range
values, oobError for the IndexError raised by numpy on an out-of-bounds
array index, and typeError for TypeError on missing operands. -/
inductive PyErr where
  | valueError
  | dimError
  | rangeError
  | oobError
  | typeError
deriving DecidableEq

/-- The four persisted fields of the interval class, in the order of the
attributes of interval.__init__ (the transient semitones field is not
persisted; it is the argument or result of the conversion functions). -/
structure IntervalSpec where
  interval_order : Int
  interval_type : Int
  octave_offset : Int
  is_descending : Int
deriving DecidableEq

/-- interval.feature_dimensions. -/
def feature_dimensions : Nat := 4

/-- interval.get_silence_specs_list: the all-zero silence sentinel row. -/
def get_silence_specs_list : List Int := List.replicate feature_dimensions 0

/-- interval.get_specs_list: the four fields in list order
[interval_order, interval_type, is_descending, octave_offset]. -/
def get_specs_list (sp : IntervalSpec) : List Int :=
  [sp.interval_order, sp.interval_type, sp.is_descending, sp.octave_offset]

/-- interval.is_silence: the specs list equals the silence sentinel. -/
def is_silence (sp : IntervalSpec) : Bool :=
  get_specs_list sp = get_silence_specs_list

/-- The 12-entry Q-table of interval.semitone2interval: remainder of the
semitone magnitude mod 12 to the (interval_order, interval_type) pair.
The final fallthrough (1, 0) mirrors the initialisation
interval_order = 1, interval_type = 0 before the if-elif chain. -/
def qtablePair (r : Int) : Int × Int :=
  if r = 0 then (1, 0)
  else if r = 1 then (2, -1)
  else if r = 2 then (2, 1)
  else if r = 3 then (3, -1)
  else if r = 4 then (3, 1)
  else if r = 5 then (4, 0)
  else if r = 6 then (5, -2)
  else if r = 7 then (5, 0)
  else if r = 8 then (6, -1)
  else if r = 9 then (6, 1)
  else if r = 10 then (7, -1)
  else if r = 11 then (7, 1)
  else (1, 0)

/-- interval.semitone2interval: record the sign in is_descending, take the
magnitude, split into octave_offset (div 12) and remainder (mod 12), and
look the remainder up in the Q-table.  Total on all of Int. -/
def semitone2interval (semitones : Int) : IntervalSpec :=
  let is_descending : Int := if semitones < 0 then 1 else 0
  let m : Int := if semitones < 0 then -semitones else semitones
  { interval_order := (qtablePair (m % 12)).1
    interval_type := (qtablePair (m % 12)).2
    octave_offset := m / 12
    is_descending := is_descending }

/-- The nested order/type dispatch of interval.interval2semitone.
self.semitones is initialised to 0, so every combination the if-elif
chains do not assign falls through to 0. -/
def interval2semitoneBase (o t : Int) : Int :=
  if o = 1 then
    (if t = -2 then -1 else if t = -1 then 0 else if t = 0 then 0
     else if t = 1 then 0 else if t = 2 then 1 else 0)
  else if o = 2 then
    (if t = -2 then 0 else if t = -1 then 1 else if t = 0 then 2
     else if t = 1 then 2 else if t = 2 then 3 else 0)
  else if o = 3 then
    (if t = -2 then 2 else if t = -1 then 3 else if t = 0 then 4
     else if t = 1 then 4 else if t = 2 then 5 else 0)
  else if o = 4 then
    (if t = -2 then 4 else if t = -1 then 5 else if t = 0 then 5
     else if t = 1 then 5 else if t = 2 then 6 else 0)
  else if o = 5 then
    (if t = -2 then 6 else if t = -1 then 7 else if t = 0 then 7
     else if t = 1 then 7 else if t = 2 then 8 else 0)
  else if o = 6 then
    (if t = -2 then 7 else if t = -1 then 8 else if t = 0 then 9
     else if t = 1 then 9 else if t = 2 then 10 else 0)
  else if o = 7 then
    (if t = -2 then 9 else if t = -1 then 10 else if t = 0 then 11
     else if t = 1 then 11 else if t = 2 then 12 else 0)
  else 0

/-- interval.interval2semitone on the current fields (the specs = None
path, which performs no validation): base lookup from the order/type
dispatch, plus octave_offset * 12, negated when is_descending == 1. -/
def interval2semitone (sp : IntervalSpec) : Int :=
  let s := interval2semitoneBase sp.interval_order sp.interval_type
    + sp.octave_offset * 12
  if sp.is_descending = 1 then -s else s

/-- interval.set_specs_list on a list [order, type, is_descending,
octave_offset]: validates each field against its inclusive range and
raises ValueError when out of range. -/
def set_specs_list (specs : List Int) : Except PyErr IntervalSpec :=
  let o := specs.getD 0 0
  let t := specs.getD 1 0
  let d := specs.getD 2 0
  let oc := specs.getD 3 0
  if o > 7 ∨ o < 0 then .error .valueError
  else if t > 2 ∨ t < -2 then .error .valueError
  else if d < 0 ∨ d > 1 then .error .valueError
  else if oc < 0 ∨ oc > 9 then .error .valueError
  else .ok { interval_order := o, interval_type := t,
             octave_offset := oc, is_descending := d }

/-- The dictionary returned by interval.get_one_hot_specs_list. -/
structure OneHotSpecs where
  order_vec : List Int
  type_vec : List Int
  is_descending : Int
  octave_offset : Int
deriving DecidableEq

/-- Python list element assignment lst[i] = v: a negative index counts
from the end of the list (the wrap used here is single, matching Python
for indices in [-len, len)). -/
def pyListSet (l : List Int) (i : Int) (v : Int) : List Int :=
  if i < 0 then l.set (l.length + i).toNat v else l.set i.toNat v

/-- interval.get_one_hot_specs_list: a 7-wide indicator for the order set
at Python index order - 1 and a 5-wide indicator for the type set at
index type + 2; is_descending and octave_offset stay scalar.  For
order = 0 the Python index is -1, which wraps to the last slot. -/
def get_one_hot_specs_list (sp : IntervalSpec) : OneHotSpecs :=
  { order_vec := pyListSet (List.replicate 7 0) (sp.interval_order - 1) 1
    type_vec := pyListSet (List.replicate 5 0) (sp.interval_type + 2) 1
    is_descending := sp.is_descending
    octave_offset := sp.octave_offset }

/-- The accumulator of np.argmax: walk the list keeping the first index
holding the strictly largest value seen so far. -/
def argmaxAux : List Int → Nat → Nat → Int → Nat
  | [], _, best, _ => best
  | x :: rest, i, best, bestVal =>
      if bestVal < x then argmaxAux rest (i + 1) i x
      else argmaxAux rest (i + 1) best bestVal

/-- np.argmax on a 1-D array: the first index of the maximum value. -/
def argmaxList (l : List Int) : Nat :=
  argmaxAux l.tail 1 0 (l.headD 0)

/-- interval.set_one_hot_specs_list: order = argmax of the order vector
plus 1, type = argmax of the type vector minus 2, then the result is
validated through set_specs_list. -/
def set_one_hot_specs_list (order_vec type_vec : List Int)
    (is_descending octave_offset : Int) : Except PyErr IntervalSpec :=
  set_specs_list [(argmaxList order_vec : Int) + 1,
                  (argmaxList type_vec : Int) - 2,
                  is_descending, octave_offset]

/-- For every remainder in [0, 12), the inverse base lookup applied to
the Q-table entry returns the remainder itself. -/
theorem qtable_base_inverse (r : Int) (h0 : 0 ≤ r) (h1 : r < 12) :
    interval2semitoneBase (qtablePair r).1 (qtablePair r).2 = r := by
  interval_cases r <;> rfl

/-- C1: for every integer s with -30 <= s <= 30, interval2semitone
applied to the descriptor produced by semitone2interval returns exactly
s.  semitone2interval is a total function on Int, so it accepts any
integer without failing. -/
theorem c1_semitone_descriptor_roundtrip (s : Int)
    (h1 : -30 ≤ s) (h2 : s ≤ 30) :
    interval2semitone (semitone2interval s) = s := by
  by_cases hs : s < 0
  · simp only [semitone2interval, interval2semitone, if_pos hs]
    have hm0 : (0 : Int) ≤ -s := by omega
    have hr0 : 0 ≤ (-s) % 12 := Int.emod_nonneg _ (by norm_num)
    have hr1 : (-s) % 12 < 12 := Int.emod_lt_of_pos _ (by norm_num)
    rw [qtable_base_inverse _ hr0 hr1]
    split_ifs <;> omega
  · simp only [semitone2interval, interval2semitone, if_neg hs]
    have hr0 : 0 ≤ s % 12 := Int.emod_nonneg _ (by norm_num)
    have hr1 : s % 12 < 12 := Int.emod_lt_of_pos _ (by norm_num)
    rw [qtable_base_inverse _ hr0 hr1]
    split_ifs <;> omega

/-- Witness for C1 at the concrete input s = 3. -/
theorem c1_semitone_descriptor_roundtrip_witness :
    (-30 : Int) ≤ 3 ∧ (3 : Int) ≤ 30 ∧
      interval2semitone (semitone2interval 3) = 3 :=
  ⟨by decide, by decide,
    c1_semitone_descriptor_roundtrip 3 (by decide) (by decide)⟩

/-- Counterexample to C3: the claim predicts that the descriptor with
interval_order = 2, interval_type = 0, ascending, octave_offset = 0
yields 0 semitones, but interval2semitone tabulates type 0 for order 2
and returns 2. -/
theorem c3_counterexample :
    ¬ (interval2semitone
        { interval_order := 2, interval_type := 0,
          octave_offset := 0, is_descending := 0 } = 0) := by
  decide

/-- C3 amended: for orders 2, 3, 6 and 7 the base lookup of
interval2semitone does populate types -2, 0 and 2 rather than falling
through to 0: type 0 contributes the major value and types -2 and 2 the
diminished and augmented values (order 2: 0, 2, 3; order 3: 2, 4, 5;
order 6: 7, 9, 10; order 7: 9, 11, 12).  In particular order = 2,
type = 0, ascending, octave_offset = 0 yields 2, not 0. -/
theorem c3_amended_base_lookup_populated :
    interval2semitone ⟨2, -2, 0, 0⟩ = 0 ∧
    interval2semitone ⟨2, 0, 0, 0⟩ = 2 ∧
    interval2semitone ⟨2, 2, 0, 0⟩ = 3 ∧
    interval2semitone ⟨3, -2, 0, 0⟩ = 2 ∧
    interval2semitone ⟨3, 0, 0, 0⟩ = 4 ∧
    interval2semitone ⟨3, 2, 0, 0⟩ = 5 ∧
    interval2semitone ⟨6, -2, 0, 0⟩ = 7 ∧
    interval2semitone ⟨6, 0, 0, 0⟩ = 9 ∧
    interval2semitone ⟨6, 2, 0, 0⟩ = 10 ∧
    interval2semitone ⟨7, -2, 0, 0⟩ = 9 ∧
    interval2semitone ⟨7, 0, 0, 0⟩ = 11 ∧
    interval2semitone ⟨7, 2, 0, 0⟩ = 12 := by
  decide

instance {e a : Type} [DecidableEq e] [DecidableEq a] :
    DecidableEq (Except e a) := fun x y =>
  match x, y with
  | .error u, .error v =>
      if h : u = v then .isTrue (congrArg _ h)
      else .isFalse (fun hc => h (Except.error.inj hc))
  | .ok u, .ok v =>
      if h : u = v then .isTrue (congrArg _ h)
      else .isFalse (fun hc => h (Except.ok.inj hc))
  | .error _, .ok _ => .isFalse Except.noConfusion
  | .ok _, .error _ => .isFalse Except.noConfusion

/-- Counterexample to C4: converting the all-zero silence sentinel to
one-hot form and back does not restore it.  For order 0 the Python index
order - 1 = -1 wraps to the last slot of the 7-wide indicator, so the
descriptor comes back with interval_order = 7. -/
theorem c4_counterexample :
    ¬ (set_one_hot_specs_list
        (get_one_hot_specs_list ⟨0, 0, 0, 0⟩).order_vec
        (get_one_hot_specs_list ⟨0, 0, 0, 0⟩).type_vec
        (get_one_hot_specs_list ⟨0, 0, 0, 0⟩).is_descending
        (get_one_hot_specs_list ⟨0, 0, 0, 0⟩).octave_offset
      = .ok ⟨0, 0, 0, 0⟩) := by
  decide

/-- C4 amended: for every descriptor whose (interval_order,
interval_type) is one of the 35 legal pairs (order 1..7, type -2..2),
with is_descending in {0, 1} and octave_offset in 0..9, converting to
one-hot form with get_one_hot_specs_list and back with
set_one_hot_specs_list restores the descriptor exactly.  The all-zero
silence sentinel does not round-trip: it comes back as
interval_order = 7 (see the counterexample). -/
theorem c4_amended_one_hot_roundtrip_legal (o t d oc : Int)
    (ho1 : 1 ≤ o) (ho2 : o ≤ 7) (ht1 : -2 ≤ t) (ht2 : t ≤ 2)
    (hd1 : 0 ≤ d) (hd2 : d ≤ 1) (hoc1 : 0 ≤ oc) (hoc2 : oc ≤ 9) :
    set_one_hot_specs_list
      (get_one_hot_specs_list ⟨o, t, oc, d⟩).order_vec
      (get_one_hot_specs_list ⟨o, t, oc, d⟩).type_vec
      (get_one_hot_specs_list ⟨o, t, oc, d⟩).is_descending
      (get_one_hot_specs_list ⟨o, t, oc, d⟩).octave_offset
    = .ok ⟨o, t, oc, d⟩ := by
  interval_cases o <;> interval_cases t <;> interval_cases d <;>
    interval_cases oc <;> decide

/-- Witness for C4 amended at the ascending major third descriptor. -/
theorem c4_amended_one_hot_roundtrip_legal_witness :
    (1 : Int) ≤ 3 ∧ (3 : Int) ≤ 7 ∧ (-2 : Int) ≤ 1 ∧ (1 : Int) ≤ 2 ∧
    (0 : Int) ≤ 0 ∧ (0 : Int) ≤ 1 ∧ (0 : Int) ≤ 0 ∧ (0 : Int) ≤ 9 ∧
    set_one_hot_specs_list
      (get_one_hot_specs_list ⟨3, 1, 0, 0⟩).order_vec
      (get_one_hot_specs_list ⟨3, 1, 0, 0⟩).type_vec
      (get_one_hot_specs_list ⟨3, 1, 0, 0⟩).is_descending
      (get_one_hot_specs_list ⟨3, 1, 0, 0⟩).octave_offset
    = .ok ⟨3, 1, 0, 0⟩ :=
  ⟨by decide, by decide, by decide, by decide, by decide, by decide,
   by decide, by decide,
   c4_amended_one_hot_roundtrip_legal 3 1 0 0 (by decide) (by decide)
     (by decide) (by decide) (by decide) (by decide) (by decide)
     (by decide)⟩

/-- Helper: getD after a set at a different index is unchanged. -/
theorem getD_set_ne {a : Type} (l : List a) (i j : Nat) (x d : a)
    (h : i ≠ j) : (l.set i x).getD j d = l.getD j d := by
  simp [List.getD_eq_getElem?_getD, List.getElem?_set_ne h]

/-- Helper: getD after a set at the same in-range index returns the
stored value. -/
theorem getD_set_self {a : Type} (l : List a) (i : Nat) (x d : a)
    (h : i < l.length) : (l.set i x).getD i d = x := by
  simp [List.getD_eq_getElem?_getD, List.getElem?_set_self h]

/-- Helper: getD on a replicate at an in-range index. -/
theorem getD_replicate {a : Type} (n i : Nat) (x d : a) (h : i < n) :
    (List.replicate n x).getD i d = x := by
  simp [List.getD_eq_getElem?_getD, List.getElem?_replicate, h]

/-- numpy int8 wraparound: the value an assignment into an int8 array
stores for an arbitrary integer. -/
def int8cast (v : Int) : Int := (v + 128) % 256 - 128

/-- int8cast is the identity on values already in the int8 range. -/
theorem int8cast_eq_self (v : Int) (h1 : -128 ≤ v) (h2 : v ≤ 127) :
    int8cast v = v := by
  unfold int8cast; omega

/-- The run accumulation loop of embedder.get_RLE_from_intervals: cur is
the row that opened the current run and cnt its length so far.  A row
equal to the previous row extends the run, any other row closes it and
opens a new run of length 1 (in the source the comparison is with the
immediately preceding row, which always equals the row that opened the
run). -/
def rleGo : List (List Int) → List Int → Nat → List (List Int × Nat)
  | [], cur, cnt => [(cur, cnt)]
  | r :: rest, cur, cnt =>
      if r = cur then rleGo rest cur (cnt + 1)
      else (cur, cnt) :: rleGo rest r 1

/-- embedder.get_RLE_from_intervals: dimension check, then run-length
compression.  On an empty sequence the source raises IndexError at the
assignment RLE[0] = intervals[0]. -/
def get_RLE_from_intervals (ivs : List (List Int)) :
    Except PyErr (List (List Int × Nat)) :=
  if ¬ ivs.all (fun r => r.length = feature_dimensions) then .error .dimError
  else
    match ivs with
    | [] => .error .oobError
    | r :: rest => .ok (rleGo rest r 1)

/-- embedder.get_intervals_from_RLE: expand every (row, count) pair into
count consecutive copies of the row; the target array has dtype int8, so
each stored value passes through the int8 cast. -/
def get_intervals_from_RLE (rle : List (List Int × Nat)) :
    List (List Int) :=
  (rle.map (fun p => List.replicate p.2 (p.1.map int8cast))).flatten

/-- The sum of the run-length column of an RLE sequence. -/
def sumRunLengths (rle : List (List Int × Nat)) : Nat :=
  (rle.map (fun p => p.2)).sum

/-- Rows whose entries lie in the int8 range are fixed by the int8
cast. -/
theorem map_int8cast_eq_self (r : List Int)
    (h : ∀ v ∈ r, -128 ≤ v ∧ v ≤ 127) : r.map int8cast = r := by
  induction r with
  | nil => rfl
  | cons x xs ih =>
      have hx := h x (by simp)
      simp only [List.map_cons]
      rw [int8cast_eq_self x hx.1 hx.2, ih (fun v hv => h v (by simp [hv]))]

/-- Decompressing the run accumulation loop yields cnt copies of the
open run followed by the remaining rows. -/
theorem rleGo_decompress (rest : List (List Int)) :
    ∀ (cur : List Int) (cnt : Nat),
      (∀ v ∈ cur, -128 ≤ v ∧ v ≤ 127) →
      (∀ row ∈ rest, ∀ v ∈ row, -128 ≤ v ∧ v ≤ 127) →
      get_intervals_from_RLE (rleGo rest cur cnt)
        = List.replicate cnt cur ++ rest := by
  induction rest with
  | nil =>
      intro cur cnt hcur _
      simp [rleGo, get_intervals_from_RLE, map_int8cast_eq_self cur hcur]
  | cons r rs ih =>
      intro cur cnt hcur hrest
      have hr : ∀ v ∈ r, -128 ≤ v ∧ v ≤ 127 := hrest r (by simp)
      have hrs : ∀ row ∈ rs, ∀ v ∈ row, -128 ≤ v ∧ v ≤ 127 :=
        fun row hrow => hrest row (by simp [hrow])
      by_cases heq : r = cur
      · simp only [rleGo, if_pos heq]
        rw [ih cur (cnt + 1) hcur hrs]
        rw [List.replicate_succ' cnt cur, List.append_assoc]
        simp [heq]
      · simp only [rleGo, if_neg heq]
        simp only [get_intervals_from_RLE, List.map_cons, List.flatten_cons]
        rw [map_int8cast_eq_self cur hcur]
        have := ih r 1 hr hrs
        simp only [get_intervals_from_RLE] at this
        rw [this]
        simp

/-- The run lengths of the accumulation loop sum to cnt plus the number
of remaining rows. -/
theorem rleGo_sum (rest : List (List Int)) :
    ∀ (cur : List Int) (cnt : Nat),
      sumRunLengths (rleGo rest cur cnt) = cnt + rest.length := by
  induction rest with
  | nil => intro cur cnt; simp [rleGo, sumRunLengths]
  | cons r rs ih =>
      intro cur cnt
      by_cases heq : r = cur
      · simp only [rleGo, if_pos heq]
        rw [ih cur (cnt + 1)]
        simp; omega
      · simp only [rleGo, if_neg heq]
        simp only [sumRunLengths, List.map_cons, List.sum_cons]
        have := ih r 1
        simp only [sumRunLengths] at this
        rw [this]
        simp; omega

/-- C2: for every non-empty interval sequence x with exactly 4 columns
(entries in the int8 range of the dtype int8 interval representation),
decompressing the compression of x reproduces x exactly, row for row in
original order, and the run-length column of the compression sums to the
number of rows of x. -/
theorem c2_rle_roundtrip (x : List (List Int))
    (hne : x ≠ [])
    (hcols : ∀ r ∈ x, r.length = 4)
    (hrange : ∀ r ∈ x, ∀ v ∈ r, -128 ≤ v ∧ v ≤ 127) :
    ∃ rle, get_RLE_from_intervals x = .ok rle ∧
      get_intervals_from_RLE rle = x ∧
      sumRunLengths rle = x.length := by
  match x, hne with
  | r :: rest, _ =>
      refine ⟨rleGo rest r 1, ?_, ?_, ?_⟩
      · have hall : (r :: rest).all (fun q => q.length = feature_dimensions)
          = true := by
          rw [List.all_eq_true]
          intro q hq
          simpa [feature_dimensions] using hcols q hq
        simp [get_RLE_from_intervals, hall]
      · rw [rleGo_decompress rest r 1 (hrange r (by simp))
          (fun row hrow => hrange row (by simp [hrow]))]
        simp
      · rw [rleGo_sum rest r 1]
        simp [Nat.add_comm]

/-- Witness for C2 at a concrete three-row sequence with a repeated
run. -/
theorem c2_rle_roundtrip_witness :
    ([[3, 1, 0, 0], [3, 1, 0, 0], [0, 0, 0, 0]] : List (List Int)) ≠ [] ∧
    (∀ r ∈ ([[3, 1, 0, 0], [3, 1, 0, 0], [0, 0, 0, 0]] : List (List Int)),
      r.length = 4) ∧
    (∃ rle, get_RLE_from_intervals
        [[3, 1, 0, 0], [3, 1, 0, 0], [0, 0, 0, 0]] = .ok rle ∧
      get_intervals_from_RLE rle
        = [[3, 1, 0, 0], [3, 1, 0, 0], [0, 0, 0, 0]] ∧
      sumRunLengths rle = 3) :=
  ⟨by decide, by decide,
    c2_rle_roundtrip [[3, 1, 0, 0], [3, 1, 0, 0], [0, 0, 0, 0]]
      (by decide) (by decide) (by decide)⟩

/-- embedder.chunk_sequence_of_intervals: dimension check, positivity
check on pixels_per_chunk, then np.reshape to
(rows // pixels_per_chunk, pixels_per_chunk, 4).  np.reshape demands
that the total number of elements is unchanged, so it raises ValueError
whenever rows is not a multiple of pixels_per_chunk; when it is, chunk c
holds the rows c * pixels_per_chunk .. (c + 1) * pixels_per_chunk - 1
(C-order regrouping). -/
def chunk_sequence_of_intervals (ivs : List (List Int)) (ppc : Nat) :
    Except PyErr (List (List (List Int))) :=
  if ¬ ivs.all (fun r => r.length = feature_dimensions) then .error .dimError
  else if ppc < 1 then .error .valueError
  else if (ivs.length / ppc) * ppc ≠ ivs.length then .error .valueError
  else .ok ((List.range (ivs.length / ppc)).map
    (fun c => (ivs.drop (c * ppc)).take ppc))

/-- Counterexample to C5: a 5-row interval sequence with
pixels_per_chunk = 2 makes chunk_sequence_of_intervals fail (np.reshape
raises ValueError because 5 rows cannot be reshaped into 2 chunks of 2);
it does not silently truncate. -/
theorem c5_counterexample :
    chunk_sequence_of_intervals
      (List.replicate 5 (List.replicate 4 (0 : Int))) 2
    = .error .valueError := by
  decide

/-- C5 amended: for every interval sequence whose row count is not a
multiple of pixels_per_chunk (pixels_per_chunk >= 1),
chunk_sequence_of_intervals does fail: np.reshape raises ValueError
rather than truncating the sequence. -/
theorem c5_amended_chunk_fails_on_nonmultiple
    (ivs : List (List Int)) (ppc : Nat)
    (hppc : 1 ≤ ppc)
    (hcols : ∀ r ∈ ivs, r.length = 4)
    (hmod : ivs.length % ppc ≠ 0) :
    chunk_sequence_of_intervals ivs ppc = .error .valueError := by
  have hall : ivs.all (fun r => r.length = feature_dimensions) = true := by
    rw [List.all_eq_true]
    intro q hq
    simpa [feature_dimensions] using hcols q hq
  have hne : (ivs.length / ppc) * ppc ≠ ivs.length := by
    have h := Nat.div_add_mod ivs.length ppc
    rw [Nat.mul_comm]
    generalize hM : ppc * (ivs.length / ppc) = M at h ⊢
    omega
  simp [chunk_sequence_of_intervals, hall, hne, Nat.not_lt.mpr hppc]

/-- Witness for C5 amended at a concrete 3-row sequence with
pixels_per_chunk = 2. -/
theorem c5_amended_chunk_fails_on_nonmultiple_witness :
    1 ≤ 2 ∧
    (∀ r ∈ List.replicate 3 (List.replicate 4 (0 : Int)), r.length = 4) ∧
    (List.replicate 3 (List.replicate 4 (0 : Int))).length % 2 ≠ 0 ∧
    chunk_sequence_of_intervals
      (List.replicate 3 (List.replicate 4 (0 : Int))) 2
    = .error .valueError :=
  ⟨by decide, by decide, by decide,
    c5_amended_chunk_fails_on_nonmultiple _ 2 (by decide) (by decide)
      (by decide)⟩

/-- Number of MIDI pitch lanes in a pianoroll row. -/
def NOTES_IN_MIDI : Nat := 128

/-- A cell of extract_highest_pitch_notes_from_pianoroll after
preprocessing: the uint8 cast (mod 256, nonnegative) followed by
np.clip(., 0, 1). -/
def pyCell (v : Int) : Int := min (v % 256) 1

/-- embedder.extract_highest_pitch_notes_from_pianoroll at a single
timestep: clip the 128 lanes to 0/1, multiply lane j by the coefficient
j + 1 (the products stay below 256, so the in-place uint8 multiply does
not wrap), and take np.argmax, which lands on the highest active lane,
or 0 when the whole row is silent. -/
def leadPitch (row : List Int) : Nat :=
  argmaxList ((List.range NOTES_IN_MIDI).map
    (fun j => pyCell (row.getD j 0) * ((j : Int) + 1)))

/-- The interval-building loop of
embedder.get_melodic_intervals_from_pianoroll over the notes from step 1
on: a silent step emits the silence sentinel and keeps the reference, a
sounding step emits the interval from the last sounded pitch and becomes
the new reference.  The initial reference is the pitch of step 0 even
when that step is silent (last_voice_index is initialised to 0). -/
def melLoop : List Nat → Int → List (List Int)
  | [], _ => []
  | n :: rest, last =>
      if n = 0 then get_silence_specs_list :: melLoop rest last
      else get_specs_list (semitone2interval ((n : Int) - last))
        :: melLoop rest (n : Int)

/-- embedder.get_melodic_intervals_from_pianoroll: dimension check,
lead-voice extraction, then the melodic interval loop.  Row 0 of the
output is left at the zero placeholder.  On an empty pianoroll the
notes[0] access raises IndexError, and on a single silent step the
assignment intervals[1] raises IndexError. -/
def get_melodic_intervals_from_pianoroll (pr : List (List Int)) :
    Except PyErr (List (List Int)) :=
  if ¬ pr.all (fun r => r.length = NOTES_IN_MIDI) then .error .dimError
  else
    match pr.map leadPitch with
    | [] => .error .oobError
    | n0 :: rest =>
        if n0 = 0 ∧ rest = [] then .error .oobError
        else .ok (get_silence_specs_list :: melLoop rest (n0 : Int))

/-- An all-zero pianoroll row. -/
def zeroRow128 : List Int := List.replicate NOTES_IN_MIDI 0

/-- The numpy cell assignment pianoroll[i, j] = v on a list of rows. -/
def listSet2 (pr : List (List Int)) (i j : Nat) (v : Int) :
    List (List Int) :=
  pr.set i ((pr.getD i []).set j v)

/-- The main loop of embedder.get_pianoroll_from_melodic_intervals from
index leading_silence + 1 on, with fuel counting the remaining indices:
each non-silent row is validated, its semitone value recomputed only
when the row differs from the previous row (otherwise the cached
semitones value is reused), the running origin advanced, range-checked,
and written into row i + 1 of the pianoroll. -/
def melDecLoop (ivs : List (List Int)) (vel : Int) :
    Nat → Nat → Int → Int → List (List Int) →
    Except PyErr (List (List Int))
  | _, 0, _, _, pr => .ok pr
  | i, fuel + 1, origin, sem, pr =>
      match set_specs_list (ivs.getD i []) with
      | .error e => .error e
      | .ok sp =>
          if is_silence sp then melDecLoop ivs vel (i + 1) fuel origin sem pr
          else
            let sem2 := if ivs.getD i [] ≠ ivs.getD (i - 1) []
              then interval2semitone sp else sem
            let origin2 := origin + sem2
            if origin2 > 127 ∨ origin2 < 0 then .error .rangeError
            else melDecLoop ivs vel (i + 1) fuel origin2 sem2
              (listSet2 pr (i + 1) origin2.toNat vel)

/-- embedder.get_pianoroll_from_melodic_intervals: dimension check,
leading_silence bound check against the length before row 0 is dropped,
origin and velocity range checks; then row 0 is dropped, the origin is
written at row leading_silence, the row at index leading_silence of the
shortened sequence is processed (an out-of-bounds IndexError when the
shortened sequence has no such row), and the main loop runs with the
semitones cache initialised to 0. -/
def get_pianoroll_from_melodic_intervals (ivs : List (List Int))
    (origin vel : Int) (leading_silence : Nat) :
    Except PyErr (List (List Int)) :=
  if ¬ ivs.all (fun r => r.length = feature_dimensions) then .error .dimError
  else if ivs.length ≤ leading_silence then .error .valueError
  else if origin > 127 ∨ origin < 0 then .error .rangeError
  else if vel > 127 ∨ vel < 0 then .error .rangeError
  else
    let ivs2 := ivs.drop 1
    let pr1 := listSet2 (List.replicate (ivs2.length + 1) zeroRow128)
      leading_silence origin.toNat vel
    if leading_silence < ivs2.length then
      match set_specs_list (ivs2.getD leading_silence []) with
      | .error e => .error e
      | .ok sp =>
          if is_silence sp then
            melDecLoop ivs2 vel (leading_silence + 1)
              (ivs2.length - (leading_silence + 1)) origin 0 pr1
          else
            let origin2 := origin + interval2semitone sp
            if origin2 > 127 ∨ origin2 < 0 then .error .rangeError
            else melDecLoop ivs2 vel (leading_silence + 1)
              (ivs2.length - (leading_silence + 1)) origin2 0
              (listSet2 pr1 (leading_silence + 1) origin2.toNat vel)
    else .error .oobError

/-- Step 0 of the C6 example pianoroll: a single note at pitch 60. -/
def c6_step0 : List Int := zeroRow128.set 60 100

/-- Step 1 of the C6 example pianoroll: a single note at pitch 64. -/
def c6_step1 : List Int := zeroRow128.set 64 100

/-- The C6 example pianoroll: one active lane per step, stepping from
pitch 60 to pitch 64. -/
def c6_pianoroll : List (List Int) := [c6_step0, c6_step1]

set_option maxRecDepth 100000 in
/-- C6: the pianoroll whose single active lane steps from pitch 60 to
pitch 64 yields the ascending major third descriptor [3, 1, 0, 0] at
step 1, and decoding that interval sequence with origin 60 reconstructs
pitch 64 (velocity written at lane 64) at the corresponding step. -/
theorem c6_melodic_example :
    get_melodic_intervals_from_pianoroll c6_pianoroll
      = .ok [[0, 0, 0, 0], [3, 1, 0, 0]] ∧
    get_pianoroll_from_melodic_intervals [[0, 0, 0, 0], [3, 1, 0, 0]]
        60 100 0
      = .ok [zeroRow128.set 60 100, zeroRow128.set 64 100] ∧
    (zeroRow128.set 64 100).getD 64 0 = 100 :=
  ⟨by decide, by decide, by decide⟩

/-- C10: for every interval sequence of length n >= 2 (4 columns),
calling get_pianoroll_from_melodic_intervals with
leading_silence = n - 1 passes the leading-silence bound check, which
uses the length before row 0 is dropped, but then indexes the shortened
n - 1 row sequence at position n - 1 and fails with the out-of-bounds
IndexError, not the documented ValueError. -/
theorem c10_leading_silence_off_by_one (ivs : List (List Int))
    (hlen : 2 ≤ ivs.length)
    (hcols : ∀ r ∈ ivs, r.length = 4) :
    get_pianoroll_from_melodic_intervals ivs 60 100 (ivs.length - 1)
      = .error .oobError := by
  have hall : ivs.all (fun r => r.length = feature_dimensions) = true := by
    rw [List.all_eq_true]
    intro q hq
    simpa [feature_dimensions] using hcols q hq
  have hls : ¬ (ivs.length ≤ ivs.length - 1) := by omega
  have hidx : ¬ (ivs.length - 1 < (ivs.drop 1).length) := by
    rw [List.length_drop]; omega
  simp only [get_pianoroll_from_melodic_intervals, hall]
  norm_num [hls, hidx]

/-- Witness for C10 at a concrete two-row interval sequence. -/
theorem c10_leading_silence_off_by_one_witness :
    2 ≤ ([[0, 0, 0, 0], [0, 0, 0, 0]] : List (List Int)).length ∧
    (∀ r ∈ ([[0, 0, 0, 0], [0, 0, 0, 0]] : List (List Int)),
      r.length = 4) ∧
    get_pianoroll_from_melodic_intervals [[0, 0, 0, 0], [0, 0, 0, 0]]
        60 100 1
      = .error .oobError :=
  ⟨by decide, by decide,
    c10_leading_silence_off_by_one [[0, 0, 0, 0], [0, 0, 0, 0]]
      (by decide) (by decide)⟩

/-- The downward reference scan of
embedder.get_harmonic_intervals_from_pianoroll: starting at note - 1,
walk down while the reference row holds 0; some index of the nearest
active reference lane strictly below note, or none when the scan walks
past lane 0. -/
def scanDown (refRow : List Int) : Nat → Option Nat
  | 0 => none
  | n + 1 => if refRow.getD n 0 = 0 then scanDown refRow n else some n

/-- The per-step body of embedder.get_harmonic_intervals_from_pianoroll:
a silent lead pitch emits the silence sentinel without touching the
reference; otherwise the while condition immediately evaluates
ref_pianoroll[i, note - 1], which raises IndexError when the reference
pianoroll has no row i, and with row i present the reference row is
scanned downward from the lead pitch; a found lane yields the interval
from the lead pitch to it, and no found lane yields the silence
sentinel. -/
def harmonicStep (ref_pianoroll : List (List Int)) (notes : List Nat)
    (i : Nat) : Except PyErr (List Int) :=
  let note := notes.getD i 0
  if note = 0 then .ok get_silence_specs_list
  else if i < ref_pianoroll.length then
    match scanDown (ref_pianoroll.getD i []) note with
    | some r =>
        .ok (get_specs_list (semitone2interval ((note : Int) - (r : Int))))
    | none => .ok get_silence_specs_list
  else .error .oobError

/-- The enumeration loop of
embedder.get_harmonic_intervals_from_pianoroll, with fuel counting the
remaining steps; every iteration writes exactly row i, so the result is
the list of the per-step rows, and the first failing step aborts the
call. -/
def harmonicRows (ref_pianoroll : List (List Int)) (notes : List Nat) :
    Nat → Nat → Except PyErr (List (List Int))
  | _, 0 => .ok []
  | i, fuel + 1 =>
      match harmonicStep ref_pianoroll notes i with
      | .error e => .error e
      | .ok row =>
          match harmonicRows ref_pianoroll notes (i + 1) fuel with
          | .error e => .error e
          | .ok rest => .ok (row :: rest)

/-- embedder.get_harmonic_intervals_from_pianoroll: dimension checks on
both pianorolls, then the per-step harmonic interval loop over the
subject's lead pitches. -/
def get_harmonic_intervals_from_pianoroll
    (ref_pianoroll pr : List (List Int)) :
    Except PyErr (List (List Int)) :=
  if ¬ pr.all (fun r => r.length = NOTES_IN_MIDI) then .error .dimError
  else if ¬ ref_pianoroll.all (fun r => r.length = NOTES_IN_MIDI) then
    .error .dimError
  else
    harmonicRows ref_pianoroll (pr.map leadPitch) 0
      (pr.map leadPitch).length

/-- When every reference lane strictly below the scan start is silent,
the downward scan finds nothing. -/
theorem scanDown_eq_none (refRow : List Int) (p : Nat)
    (h : ∀ j, j < p → refRow.getD j 0 = 0) : scanDown refRow p = none := by
  induction p with
  | zero => rfl
  | succ n ih =>
      simp only [scanDown, h n (by omega), if_pos rfl]
      exact ih (fun j hj => h j (by omega))

set_option maxRecDepth 100000 in
/-- The lead pitch of the empty row is 0. -/
theorem leadPitch_nil : leadPitch ([] : List Int) = 0 := by decide

/-- getD on a map over List.range at an in-range index evaluates the
mapped function. -/
theorem getD_range_map {a : Type} (f : Nat → a) (n i : Nat) (d : a)
    (h : i < n) : ((List.range n).map f).getD i d = f i := by
  rw [List.getD_eq_getElem?_getD, List.getElem?_map, List.getElem?_range h]
  rfl

/-- getD on a mapped list with the default seen through the map. -/
theorem getD_map_leadPitch (pr : List (List Int)) (i : Nat) :
    (pr.map leadPitch).getD i 0 = leadPitch (pr.getD i []) := by
  have h := List.getD_map pr ([] : List Int) (n := i) (fun r => (leadPitch r : Nat))
  rw [leadPitch_nil] at h
  exact h

/-- The argmax accumulator never returns an index outside the carried
best index and the index range of the walked suffix. -/
theorem argmaxAux_lt (l : List Int) :
    ∀ (i b : Nat) (bv : Int) (n : Nat), b < n → i + l.length ≤ n →
      argmaxAux l i b bv < n := by
  induction l with
  | nil => intro i b bv n hb _; simpa [argmaxAux] using hb
  | cons x rest ih =>
      intro i b bv n hb hlen
      simp only [List.length_cons] at hlen
      by_cases hx : bv < x
      · simp only [argmaxAux, if_pos hx]
        exact ih (i + 1) i x n (by omega) (by omega)
      · simp only [argmaxAux, if_neg hx]
        exact ih (i + 1) b bv n hb (by omega)

/-- The lead pitch of any row is a valid lane index. -/
theorem leadPitch_lt (row : List Int) : leadPitch row < 128 := by
  unfold leadPitch argmaxList
  apply argmaxAux_lt
  · norm_num
  · have : ((List.range NOTES_IN_MIDI).map
        (fun j => pyCell (row.getD j 0) * ((j : Int) + 1))).length = 128 := by
      simp [NOTES_IN_MIDI]
    rw [List.length_tail, this]

/-- Every lane of the all-zero row reads 0. -/
theorem zeroRow128_getD (j : Nat) : zeroRow128.getD j 0 = 0 := by
  rw [zeroRow128, List.getD_eq_getElem?_getD, List.getElem?_replicate]
  by_cases h : j < NOTES_IN_MIDI
  · simp [h]
  · simp [h]

/-- A step whose lead pitch is silent, or whose index is covered by the
reference pianoroll, cannot fail; in particular every step succeeds when
the subject note sequence is no longer than the reference pianoroll (a
sounding lead pitch at i forces i within the note sequence, since
reading past it defaults to 0). -/
theorem harmonicStep_ok_of_le (ref_pianoroll : List (List Int))
    (notes : List Nat) (hlen : notes.length ≤ ref_pianoroll.length)
    (i : Nat) : ∃ row, harmonicStep ref_pianoroll notes i = .ok row := by
  simp only [harmonicStep]
  by_cases h0 : notes.getD i 0 = 0
  · exact ⟨get_silence_specs_list, by rw [if_pos h0]⟩
  · have hi : i < notes.length := by
      by_contra hc
      push_neg at hc
      exact h0 (List.getD_eq_default _ _ hc)
    have hiref : i < ref_pianoroll.length := by omega
    cases hsd : scanDown (ref_pianoroll.getD i []) (notes.getD i 0) with
    | none =>
        exact ⟨get_silence_specs_list, by rw [if_neg h0, if_pos hiref]⟩
    | some r =>
        exact ⟨get_specs_list
            (semitone2interval ((notes.getD i 0 : Int) - (r : Int))),
          by rw [if_neg h0, if_pos hiref]⟩

/-- When the subject note sequence is no longer than the reference
pianoroll, the harmonic interval loop succeeds. -/
theorem harmonicRows_ok_of_le (ref_pianoroll : List (List Int))
    (notes : List Nat) (hlen : notes.length ≤ ref_pianoroll.length) :
    ∀ (fuel i0 : Nat),
      ∃ out, harmonicRows ref_pianoroll notes i0 fuel = .ok out := by
  intro fuel
  induction fuel with
  | zero => intro i0; exact ⟨[], rfl⟩
  | succ fuel ih =>
      intro i0
      obtain ⟨row, hrow⟩ := harmonicStep_ok_of_le ref_pianoroll notes hlen i0
      obtain ⟨rest, hrest⟩ := ih (i0 + 1)
      exact ⟨row :: rest, by simp only [harmonicRows, hrow, hrest]⟩

/-- Each row of a successful harmonic interval loop is the value its own
step produced. -/
theorem harmonicRows_ok_spec (ref_pianoroll : List (List Int))
    (notes : List Nat) :
    ∀ (fuel i0 : Nat) (out : List (List Int)),
      harmonicRows ref_pianoroll notes i0 fuel = .ok out →
      ∀ k, k < fuel →
        harmonicStep ref_pianoroll notes (i0 + k) = .ok (out.getD k []) := by
  intro fuel
  induction fuel with
  | zero => intro i0 out _ k hk; omega
  | succ fuel ih =>
      intro i0 out hok k hk
      simp only [harmonicRows] at hok
      cases hs : harmonicStep ref_pianoroll notes i0 with
      | error e => simp only [hs] at hok; exact absurd hok (by simp)
      | ok row =>
          simp only [hs] at hok
          cases hr : harmonicRows ref_pianoroll notes (i0 + 1) fuel with
          | error e => simp only [hr] at hok; exact absurd hok (by simp)
          | ok rest =>
              simp only [hr] at hok
              injection hok with h
              subst h
              cases k with
              | zero => simpa using hs
              | succ k2 =>
                  have hstep := ih (i0 + 1) rest hr k2 (by omega)
                  have harith : i0 + (k2 + 1) = (i0 + 1) + k2 := by omega
                  rw [harith]
                  simpa using hstep

/-- C7: at every step i where the reference pianoroll has no active lane
strictly below the subject pianoroll's lead pitch (in particular when
the reference row at i is entirely silent),
get_harmonic_intervals_from_pianoroll emits the silence sentinel at
row i and does not raise an error, regardless of the subject
pianoroll's content at i.  The reference pianoroll covers the subject's
steps (the aligned-pianoroll setting of the data model); a sounding
subject step with no reference row at all instead hits the IndexError
of ref_pianoroll[i, note - 1], which the embedding keeps as oobError. -/
theorem c7_harmonic_silence_on_empty_reference
    (ref_pianoroll pr : List (List Int)) (i : Nat)
    (hpr : ∀ r ∈ pr, r.length = 128)
    (href : ∀ r ∈ ref_pianoroll, r.length = 128)
    (hlen : pr.length ≤ ref_pianoroll.length)
    (hi : i < pr.length)
    (hbelow : ∀ j, j < leadPitch (pr.getD i []) →
      (ref_pianoroll.getD i []).getD j 0 = 0) :
    ∃ out, get_harmonic_intervals_from_pianoroll ref_pianoroll pr = .ok out ∧
      out.getD i [] = get_silence_specs_list := by
  have hlen2 : (pr.map leadPitch).length ≤ ref_pianoroll.length := by
    rw [List.length_map]; exact hlen
  obtain ⟨out, hout⟩ := harmonicRows_ok_of_le ref_pianoroll
    (pr.map leadPitch) hlen2 (pr.map leadPitch).length 0
  refine ⟨out, ?_, ?_⟩
  · have hall1 : pr.all (fun r => r.length = NOTES_IN_MIDI) = true := by
      rw [List.all_eq_true]
      intro q hq
      simpa [NOTES_IN_MIDI] using hpr q hq
    have hall2 : ref_pianoroll.all (fun r => r.length = NOTES_IN_MIDI)
        = true := by
      rw [List.all_eq_true]
      intro q hq
      simpa [NOTES_IN_MIDI] using href q hq
    simp only [get_harmonic_intervals_from_pianoroll, hall1, hall2]
    simpa using hout
  · have hstep := harmonicRows_ok_spec ref_pianoroll (pr.map leadPitch)
      (pr.map leadPitch).length 0 out hout i (by simpa using hi)
    rw [Nat.zero_add] at hstep
    simp only [harmonicStep] at hstep
    rw [getD_map_leadPitch] at hstep
    by_cases hz : leadPitch (pr.getD i []) = 0
    · rw [if_pos hz] at hstep
      injection hstep with h
      exact h.symm
    · have hiref : i < ref_pianoroll.length := by omega
      rw [if_neg hz, if_pos hiref] at hstep
      simp only [scanDown_eq_none _ _ hbelow] at hstep
      injection hstep with h
      exact h.symm

set_option maxRecDepth 100000 in
/-- Witness for C7: a one-step pianoroll sounding pitch 60 against an
entirely silent one-row reference pianoroll. -/
theorem c7_harmonic_silence_on_empty_reference_witness :
    (∀ r ∈ [c6_step0], r.length = 128) ∧
    (∀ r ∈ [zeroRow128], r.length = 128) ∧
    ([c6_step0] : List (List Int)).length
      ≤ ([zeroRow128] : List (List Int)).length ∧
    (0 : Nat) < 1 ∧
    (∃ out, get_harmonic_intervals_from_pianoroll [zeroRow128] [c6_step0]
        = .ok out ∧
      out.getD 0 [] = get_silence_specs_list) :=
  ⟨by decide, by decide, by decide, by decide,
    c7_harmonic_silence_on_empty_reference [zeroRow128] [c6_step0] 0
      (by decide) (by decide) (by decide) (by decide)
      (by
        intro j _
        show zeroRow128.getD j 0 = 0
        exact zeroRow128_getD j)⟩

/-- One iteration of the loop of
embedder.get_pianoroll_from_harmonic_intervals at step i: a silent
reference pitch skips the step; otherwise the interval row i is
validated (fetching it raises IndexError when the interval sequence is
too short), converted to semitones, range-checked against the MIDI
range, and the velocity is written at reference pitch + semitones. -/
def harmStep (refNotes : List Nat) (ivs : List (List Int)) (vel : Int)
    (i : Nat) (out : List (List Int)) : Except PyErr (List (List Int)) :=
  let ref := refNotes.getD i 0
  if ref = 0 then .ok out
  else if i < ivs.length then
    match set_specs_list (ivs.getD i []) with
    | .error e => .error e
    | .ok sp =>
        let note := interval2semitone sp
        if (ref : Int) + note > 127 ∨ (ref : Int) + note < 0 then
          .error .rangeError
        else .ok (listSet2 out i ((ref : Int) + note).toNat vel)
  else .error .oobError

/-- The enumeration loop of
embedder.get_pianoroll_from_harmonic_intervals, with fuel counting the
remaining steps. -/
def harmLoop (refNotes : List Nat) (ivs : List (List Int)) (vel : Int) :
    Nat → Nat → List (List Int) → Except PyErr (List (List Int))
  | _, 0, out => .ok out
  | i, fuel + 1, out =>
      match harmStep refNotes ivs vel i out with
      | .error e => .error e
      | .ok out2 => harmLoop refNotes ivs vel (i + 1) fuel out2

/-- embedder.get_pianoroll_from_harmonic_intervals: dimension checks,
velocity range check, then the per-step loop over the reference lead
pitches writing into a zero pianoroll with one row per interval row. -/
def get_pianoroll_from_harmonic_intervals
    (pr ivs : List (List Int)) (vel : Int) :
    Except PyErr (List (List Int)) :=
  if ¬ pr.all (fun r => r.length = NOTES_IN_MIDI) then .error .dimError
  else if ¬ ivs.all (fun r => r.length = feature_dimensions) then
    .error .dimError
  else if vel > 127 ∨ vel < 0 then .error .rangeError
  else
    harmLoop (pr.map leadPitch) ivs vel 0 (pr.map leadPitch).length
      (List.replicate ivs.length zeroRow128)

/-- A successful harmStep never changes rows other than its own step. -/
theorem harmStep_preserves (refNotes : List Nat) (ivs : List (List Int))
    (vel : Int) (i : Nat) (out out2 : List (List Int))
    (hok : harmStep refNotes ivs vel i out = .ok out2)
    (k : Nat) (hk : k ≠ i) : out2.getD k [] = out.getD k [] := by
  unfold harmStep at hok
  by_cases h0 : refNotes.getD i 0 = 0
  · rw [if_pos h0] at hok
    injection hok with h
    rw [h]
  · rw [if_neg h0] at hok
    by_cases hlen : i < ivs.length
    · rw [if_pos hlen] at hok
      cases hsp : set_specs_list (ivs.getD i []) with
      | error e => simp only [hsp] at hok; exact absurd hok (by simp)
      | ok sp =>
          simp only [hsp] at hok
          by_cases hrange : (refNotes.getD i 0 : Int) + interval2semitone sp
              > 127 ∨ (refNotes.getD i 0 : Int) + interval2semitone sp < 0
          · rw [if_pos hrange] at hok
            exact absurd hok (by simp)
          · rw [if_neg hrange] at hok
            injection hok with h
            rw [← h]
            unfold listSet2
            exact getD_set_ne out i k _ [] (fun hik => hk hik.symm)
    · rw [if_neg hlen] at hok
      exact absurd hok (by simp)

/-- A successful harmStep at a sounding reference pitch whose interval
row is the silence sentinel writes the velocity at the reference pitch
itself: the silence row passes validation, converts to 0 semitones, and
is not skipped. -/
theorem harmStep_silence_row (refNotes : List Nat) (ivs : List (List Int))
    (vel : Int) (i : Nat) (out out2 : List (List Int))
    (h0 : refNotes.getD i 0 ≠ 0)
    (hsil : ivs.getD i [] = get_silence_specs_list)
    (hok : harmStep refNotes ivs vel i out = .ok out2) :
    i < ivs.length ∧ out2 = listSet2 out i (refNotes.getD i 0) vel := by
  unfold harmStep at hok
  rw [if_neg h0] at hok
  by_cases hlen : i < ivs.length
  · refine ⟨hlen, ?_⟩
    rw [if_pos hlen, hsil] at hok
    have hsp : set_specs_list get_silence_specs_list
        = .ok ⟨0, 0, 0, 0⟩ := by decide
    simp only [hsp] at hok
    have hnote : interval2semitone ⟨0, 0, 0, 0⟩ = 0 := by decide
    simp only [hnote, add_zero, Int.toNat_natCast] at hok
    by_cases hrange : (refNotes.getD i 0 : Int) > 127 ∨
        (refNotes.getD i 0 : Int) < 0
    · rw [if_pos hrange] at hok
      exact absurd hok (by simp)
    · rw [if_neg hrange] at hok
      injection hok with h
      rw [h]
  · rw [if_neg hlen] at hok
    exact absurd hok (by simp)

/-- A successful run of the harmonic decode loop: rows before the start
index are untouched, and every step in range whose reference pitch is
sounding and whose interval row is the silence sentinel ends with the
velocity written at the reference pitch on top of the row the loop
started from. -/
theorem harmLoop_ok_spec (refNotes : List Nat) (ivs : List (List Int))
    (vel : Int) :
    ∀ (fuel i0 : Nat) (out0 out : List (List Int)),
      harmLoop refNotes ivs vel i0 fuel out0 = .ok out →
      (∀ k, k < i0 → out.getD k [] = out0.getD k []) ∧
      (∀ i, i0 ≤ i → i < i0 + fuel → refNotes.getD i 0 ≠ 0 →
        ivs.getD i [] = get_silence_specs_list →
        i < ivs.length ∧
        out.getD i [] = (out0.getD i []).set (refNotes.getD i 0) vel) := by
  intro fuel
  induction fuel with
  | zero =>
      intro i0 out0 out hok
      simp only [harmLoop] at hok
      injection hok with h
      subst h
      exact ⟨fun k _ => rfl, fun i h1 h2 _ _ => absurd h2 (by omega)⟩
  | succ fuel ih =>
      intro i0 out0 out hok
      simp only [harmLoop] at hok
      cases hs : harmStep refNotes ivs vel i0 out0 with
      | error e => simp only [hs] at hok; exact absurd hok (by simp)
      | ok out1 =>
          simp only [hs] at hok
          obtain ⟨p1, p2⟩ := ih (i0 + 1) out1 out hok
          constructor
          · intro k hk
            rw [p1 k (by omega)]
            exact harmStep_preserves refNotes ivs vel i0 out0 out1 hs k
              (by omega)
          · intro i h1 h2 h3 h4
            by_cases hii : i = i0
            · subst hii
              obtain ⟨hlen, hout1⟩ :=
                harmStep_silence_row refNotes ivs vel i out0 out1 h3 h4 hs
              refine ⟨hlen, ?_⟩
              rw [p1 i (by omega), hout1]
              unfold listSet2
              by_cases hlen2 : i < out0.length
              · exact getD_set_self out0 i _ [] hlen2
              · rw [List.set_eq_of_length_le (by omega)]
                rw [List.getD_eq_default _ _ (by omega)]
                rfl
            · obtain ⟨hlen, hrow⟩ := p2 i (by omega) (by omega) h3 h4
              refine ⟨hlen, ?_⟩
              rw [hrow]
              rw [harmStep_preserves refNotes ivs vel i0 out0 out1 hs i hii]

/-- C9: in get_pianoroll_from_harmonic_intervals, at every step i where
the reference pianoroll's lead pitch is sounding but interval row i is
the silence sentinel, a note is still placed: the silence sentinel
passes validation, converts to 0 semitones, and the output pianoroll
gets the velocity written at the reference pitch itself at step i
(silence interval rows are not skipped). -/
theorem c9_silence_row_places_reference_note
    (pr ivs : List (List Int)) (vel : Int) (out : List (List Int)) (i : Nat)
    (hok : get_pianoroll_from_harmonic_intervals pr ivs vel = .ok out)
    (hi : i < pr.length)
    (href : leadPitch (pr.getD i []) ≠ 0)
    (hsil : ivs.getD i [] = get_silence_specs_list) :
    (out.getD i []).getD (leadPitch (pr.getD i [])) 0 = vel := by
  simp only [get_pianoroll_from_harmonic_intervals] at hok
  split_ifs at hok
  obtain ⟨_, p2⟩ := harmLoop_ok_spec (pr.map leadPitch) ivs vel
    (pr.map leadPitch).length 0 (List.replicate ivs.length zeroRow128)
    out hok
  have hi2 : i < 0 + (pr.map leadPitch).length := by simpa using hi
  have hrefn : (pr.map leadPitch).getD i 0 ≠ 0 := by
    rw [getD_map_leadPitch]; exact href
  obtain ⟨hlen, hrow⟩ := p2 i (by omega) hi2 hrefn hsil
  rw [getD_map_leadPitch] at hrow
  rw [hrow, getD_replicate ivs.length i zeroRow128 [] hlen]
  refine getD_set_self zeroRow128 (leadPitch (pr.getD i [])) vel 0 ?_
  rw [zeroRow128, List.length_replicate]
  have := leadPitch_lt (pr.getD i [])
  simpa [NOTES_IN_MIDI] using this

set_option maxRecDepth 100000 in
/-- Witness for C9: a one-step reference pianoroll sounding pitch 60
with a silence interval row places velocity 100 at lane 60. -/
theorem c9_silence_row_places_reference_note_witness :
    get_pianoroll_from_harmonic_intervals [c6_step0] [[0, 0, 0, 0]] 100
      = .ok [zeroRow128.set 60 100] ∧
    (0 : Nat) < 1 ∧
    leadPitch (([c6_step0] : List (List Int)).getD 0 []) ≠ 0 ∧
    ([[0, 0, 0, 0]] : List (List Int)).getD 0 [] = get_silence_specs_list ∧
    (([zeroRow128.set 60 100] : List (List Int)).getD 0 []).getD
        (leadPitch (([c6_step0] : List (List Int)).getD 0 [])) 0 = 100 :=
  ⟨by decide, by decide, by decide, by decide,
    c9_silence_row_places_reference_note [c6_step0] [[0, 0, 0, 0]] 100
      [zeroRow128.set 60 100] 0 (by decide) (by decide) (by decide)
      (by decide)⟩

/-- The state threaded through the bar loop of
embedder.get_barwise_intervals_from_pianoroll: the interval rows built
so far, the first note of the last non-empty bar (last_bar_ref_note),
and whether the loop has executed its break statement. -/
structure BarSt where
  ivs : List (List Int)
  lastRef : Int
  stopped : Bool
deriving DecidableEq

/-- The inner while loop of
embedder.get_barwise_intervals_from_pianoroll that walks from the start
of a bar to its first sounding note, writing the silence sentinel on the
way.  fuel bounds the number of iterations; every call supplies
fuel >= stop - i, which makes the fuel-out base case unreachable before
the loop condition fails.  Returns the updated rows and the index the
loop stopped at. -/
def fillSilences (notes : List Nat) :
    Nat → List (List Int) → Nat → Nat → (List (List Int)) × Nat
  | 0, ivs, i, _ => (ivs, i)
  | fuel + 1, ivs, i, stop =>
      if i < stop ∧ notes.getD i 0 = 0 then
        fillSilences notes fuel (ivs.set i get_silence_specs_list) (i + 1)
          stop
      else (ivs, i)

/-- The inner for loop of
embedder.get_barwise_intervals_from_pianoroll over the pixels of a bar
after its first note: silence rows for silent pixels, otherwise the
interval from the reference note of the bar.  fuel bounds the number of
iterations; every call supplies fuel >= stop - i. -/
def fillRest (notes : List Nat) (ref : Nat) :
    Nat → List (List Int) → Nat → Nat → List (List Int)
  | 0, ivs, _, _ => ivs
  | fuel + 1, ivs, i, stop =>
      if i < stop then
        fillRest notes ref fuel
          (ivs.set i (if notes.getD i 0 = 0 then get_silence_specs_list
            else get_specs_list
              (semitone2interval ((notes.getD i 0 : Int) - (ref : Int)))))
          (i + 1) stop
      else ivs

/-- One iteration of the bar loop of
embedder.get_barwise_intervals_from_pianoroll for bar b: after a break
nothing happens; an empty bar (slice sum 0) is skipped with continue;
otherwise the bar is walked to its first note, that note is encoded
against last_bar_ref_note and becomes the new reference (both for the
rest of the bar and for the next bar), and the remaining pixels are
filled.  When the first-note index reaches past the notes array the
source breaks out of the bar loop. -/
def processBar (notes : List Nat) (ppb : Nat) (st : BarSt) (b : Nat) :
    BarSt :=
  if st.stopped then st
  else if ((notes.drop (b * ppb)).take ppb).sum = 0 then st
  else
    let p := fillSilences notes ppb st.ivs (b * ppb) ((b + 1) * ppb)
    if p.2 < notes.length then
      let ref : Nat := notes.getD p.2 0
      { ivs := fillRest notes ref ppb
          (p.1.set p.2 (get_specs_list
            (semitone2interval ((ref : Int) - st.lastRef))))
          (p.2 + 1) ((b + 1) * ppb)
        lastRef := (ref : Int)
        stopped := false }
    else { ivs := p.1, lastRef := st.lastRef, stopped := true }

/-- The bar loop of embedder.get_barwise_intervals_from_pianoroll over
the first m bars, starting from the zero interval rows and the first
sounding note v of the whole sequence as last_bar_ref_note. -/
def barwiseFold (notes : List Nat) (ppb : Nat) (v : Nat) (m : Nat) :
    BarSt :=
  (List.range m).foldl (processBar notes ppb)
    { ivs := List.replicate notes.length (List.replicate 4 0)
      lastRef := (v : Int), stopped := false }

/-- embedder.get_barwise_intervals_from_pianoroll after validation: if
every note is silent the zero rows are returned unchanged, otherwise the
bar loop runs over length / pixels_per_bar full bars. -/
def barwiseCore (notes : List Nat) (ppb : Nat) : List (List Int) :=
  match notes.find? (fun n => n != 0) with
  | none => List.replicate notes.length (List.replicate 4 0)
  | some v => (barwiseFold notes ppb v (notes.length / ppb)).ivs

/-- embedder.get_barwise_intervals_from_pianoroll: dimension check,
pixels_per_bar positivity check, then the bar loop over the lead
pitches. -/
def get_barwise_intervals_from_pianoroll (pr : List (List Int))
    (ppb : Nat) : Except PyErr (List (List Int)) :=
  if ¬ pr.all (fun r => r.length = NOTES_IN_MIDI) then .error .dimError
  else if ppb < 1 then .error .valueError
  else .ok (barwiseCore (pr.map leadPitch) ppb)

/-- getD through List.drop. -/
theorem getD_drop (l : List Nat) (a k : Nat) :
    (l.drop a).getD k 0 = l.getD (a + k) 0 := by
  simp [List.getD_eq_getElem?_getD, List.getElem?_drop]

/-- A prefix of a list of zeros sums to zero. -/
theorem take_sum_zero (l : List Nat) :
    ∀ b, (∀ k, k < b → l.getD k 0 = 0) → (l.take b).sum = 0 := by
  induction l with
  | nil => intro b _; simp
  | cons x xs ih =>
      intro b hb
      cases b with
      | zero => simp
      | succ b2 =>
          have hx : x = 0 := hb 0 (by omega)
          simp only [List.take_succ_cons, List.sum_cons, hx, zero_add]
          exact ih b2 (fun k hk => hb (k + 1) (by omega))

/-- A slice over an all-zero index range sums to zero. -/
theorem slice_sum_zero (l : List Nat) (a b : Nat)
    (h : ∀ k, a ≤ k → k < a + b → l.getD k 0 = 0) :
    ((l.drop a).take b).sum = 0 :=
  take_sum_zero (l.drop a) b (fun k hk => by
    rw [getD_drop]; exact h (a + k) (by omega) (by omega))

/-- A slice with nonzero sum holds a nonzero entry at some index of its
range. -/
theorem exists_nonzero_of_slice_sum (l : List Nat) (a b : Nat)
    (h : ((l.drop a).take b).sum ≠ 0) :
    ∃ j, a ≤ j ∧ j < a + b ∧ l.getD j 0 ≠ 0 := by
  by_contra hc
  push_neg at hc
  exact h (slice_sum_zero l a b (fun k h1 h2 => hc k h1 h2))

/-- fillSilences only writes indices of its scan range. -/
theorem fillSilences_preserve (notes : List Nat) :
    ∀ (fuel : Nat) (ivs : List (List Int)) (i stop k : Nat) (d : List Int),
      k < i ∨ stop ≤ k →
      (fillSilences notes fuel ivs i stop).1.getD k d = ivs.getD k d := by
  intro fuel
  induction fuel with
  | zero => intro ivs i stop k d _; rfl
  | succ fuel ih =>
      intro ivs i stop k d hk
      simp only [fillSilences]
      by_cases h : i < stop ∧ notes.getD i 0 = 0
      · rw [if_pos h, ih _ (i + 1) stop k d (by omega)]
        exact getD_set_ne _ i k _ d (by omega)
      · rw [if_neg h]

/-- fillSilences never moves its index backwards. -/
theorem fillSilences_lb (notes : List Nat) :
    ∀ (fuel : Nat) (ivs : List (List Int)) (i stop : Nat),
      i ≤ (fillSilences notes fuel ivs i stop).2 := by
  intro fuel
  induction fuel with
  | zero => intro ivs i stop; exact Nat.le_refl i
  | succ fuel ih =>
      intro ivs i stop
      simp only [fillSilences]
      by_cases h : i < stop ∧ notes.getD i 0 = 0
      · rw [if_pos h]
        exact Nat.le_trans (by omega) (ih _ (i + 1) stop)
      · rw [if_neg h]

/-- With adequate fuel, fillSilences stops strictly before stop whenever
some index of the range holds a sounding note. -/
theorem fillSilences_exit_lt (notes : List Nat) :
    ∀ (fuel : Nat) (ivs : List (List Int)) (i stop : Nat),
      stop ≤ i + fuel →
      (∃ j, i ≤ j ∧ j < stop ∧ notes.getD j 0 ≠ 0) →
      (fillSilences notes fuel ivs i stop).2 < stop := by
  intro fuel
  induction fuel with
  | zero =>
      intro ivs i stop hfuel hex
      obtain ⟨j, h1, h2, _⟩ := hex
      omega
  | succ fuel ih =>
      intro ivs i stop hfuel hex
      obtain ⟨j, h1, h2, h3⟩ := hex
      simp only [fillSilences]
      by_cases h : i < stop ∧ notes.getD i 0 = 0
      · rw [if_pos h]
        refine ih _ (i + 1) stop (by omega) ⟨j, ?_, h2, h3⟩
        rcases Nat.eq_or_lt_of_le h1 with heq | hlt
        · exact absurd h.2 (by rw [heq]; exact h3)
        · omega
      · rw [if_neg h]
        simp only
        omega

/-- fillRest only writes indices of its scan range. -/
theorem fillRest_preserve (notes : List Nat) (ref : Nat) :
    ∀ (fuel : Nat) (ivs : List (List Int)) (i stop k : Nat) (d : List Int),
      k < i ∨ stop ≤ k →
      (fillRest notes ref fuel ivs i stop).getD k d = ivs.getD k d := by
  intro fuel
  induction fuel with
  | zero => intro ivs i stop k d _; rfl
  | succ fuel ih =>
      intro ivs i stop k d hk
      simp only [fillRest]
      by_cases h : i < stop
      · rw [if_pos h, ih _ (i + 1) stop k d (by omega)]
        exact getD_set_ne _ i k _ d (by omega)
      · rw [if_neg h]

/-- processBar leaves every row outside its own bar untouched. -/
theorem processBar_preserve (notes : List Nat) (ppb : Nat) (st : BarSt)
    (b k : Nat) (d : List Int)
    (hk : k < b * ppb ∨ (b + 1) * ppb ≤ k) :
    (processBar notes ppb st b).ivs.getD k d = st.ivs.getD k d := by
  simp only [processBar]
  by_cases hstop : st.stopped
  · rw [if_pos hstop]
  · rw [if_neg hstop]
    by_cases hsum : ((notes.drop (b * ppb)).take ppb).sum = 0
    · rw [if_pos hsum]
    · rw [if_neg hsum]
      obtain ⟨j, hj1, hj2, hj3⟩ :=
        exists_nonzero_of_slice_sum notes (b * ppb) ppb hsum
      have hmul : (b + 1) * ppb = b * ppb + ppb := by ring
      have hj2b : j < (b + 1) * ppb := by omega
      have hlb := fillSilences_lb notes ppb st.ivs (b * ppb)
        ((b + 1) * ppb)
      have hlt := fillSilences_exit_lt notes ppb st.ivs (b * ppb)
        ((b + 1) * ppb) (by omega) ⟨j, hj1, hj2b, hj3⟩
      by_cases hlen :
          (fillSilences notes ppb st.ivs (b * ppb) ((b + 1) * ppb)).2
            < notes.length
      · rw [if_pos hlen]
        simp only
        rw [fillRest_preserve notes _ ppb _ _ ((b + 1) * ppb) k d
          (by omega)]
        rw [getD_set_ne _ _ k _ d (by omega)]
        exact fillSilences_preserve notes ppb st.ivs (b * ppb)
          ((b + 1) * ppb) k d hk
      · rw [if_neg hlen]
        simp only
        exact fillSilences_preserve notes ppb st.ivs (b * ppb)
          ((b + 1) * ppb) k d hk

/-- processBar on an all-silent bar is the identity on the whole state:
the rows keep their values and last_bar_ref_note is carried unchanged to
the next non-empty bar. -/
theorem processBar_empty_bar (notes : List Nat) (ppb : Nat) (st : BarSt)
    (b : Nat)
    (hempty : ∀ k, b * ppb ≤ k → k < (b + 1) * ppb → notes.getD k 0 = 0) :
    processBar notes ppb st b = st := by
  simp only [processBar]
  by_cases hstop : st.stopped
  · rw [if_pos hstop]
  · rw [if_neg hstop]
    have hsum : ((notes.drop (b * ppb)).take ppb).sum = 0 := by
      refine slice_sum_zero notes (b * ppb) ppb (fun k h1 h2 => ?_)
      refine hempty k h1 ?_
      have : (b + 1) * ppb = b * ppb + ppb := by ring
      omega
    rw [if_pos hsum]

/-- Rows of an all-silent bar keep their initial zero value through any
number of bar-loop iterations. -/
theorem barwiseFold_empty_getD (notes : List Nat) (ppb b : Nat)
    (hempty : ∀ k, b * ppb ≤ k → k < (b + 1) * ppb → notes.getD k 0 = 0)
    (k : Nat) (hk1 : b * ppb ≤ k) (hk2 : k < (b + 1) * ppb) :
    ∀ (v m : Nat), (barwiseFold notes ppb v m).ivs.getD k []
      = (List.replicate notes.length
          (List.replicate 4 (0 : Int))).getD k [] := by
  intro v m
  induction m with
  | zero => rfl
  | succ m ih =>
      unfold barwiseFold at ih ⊢
      rw [List.range_succ, List.foldl_append, List.foldl_cons,
        List.foldl_nil]
      by_cases hmb : m = b
      · subst hmb
        rw [processBar_empty_bar notes ppb _ m hempty]
        exact ih
      · rw [processBar_preserve notes ppb _ m k [] ?_]
        · exact ih
        · rcases Nat.lt_or_ge m b with hlt | hge
          · right
            have : (m + 1) * ppb ≤ b * ppb :=
              Nat.mul_le_mul_right ppb (by omega)
            omega
          · left
            have hbm : b + 1 ≤ m := by omega
            have : (b + 1) * ppb ≤ m * ppb :=
              Nat.mul_le_mul_right ppb hbm
            omega

/-- C8: for every pianoroll and every pixels_per_bar >= 1, a full bar
whose every step is silent leaves all of that bar's rows in the output
of get_barwise_intervals_from_pianoroll equal to the silence sentinel,
and leaves the carried reference note unchanged: the bar-loop state
after processing the empty bar equals the state before it, so the first
note of the next non-empty bar is encoded relative to the first note of
the last preceding non-empty bar. -/
theorem c8_empty_bar_chaining (pr : List (List Int)) (ppb b : Nat)
    (out : List (List Int))
    (hppb : 1 ≤ ppb)
    (hok : get_barwise_intervals_from_pianoroll pr ppb = .ok out)
    (hbar : (b + 1) * ppb ≤ pr.length)
    (hempty : ∀ k, b * ppb ≤ k → k < (b + 1) * ppb →
      leadPitch (pr.getD k []) = 0) :
    (∀ k, b * ppb ≤ k → k < (b + 1) * ppb → out.getD k [] = [0, 0, 0, 0]) ∧
    (∀ v, barwiseFold (pr.map leadPitch) ppb v (b + 1)
        = barwiseFold (pr.map leadPitch) ppb v b) := by
  have hempty2 : ∀ k, b * ppb ≤ k → k < (b + 1) * ppb →
      (pr.map leadPitch).getD k 0 = 0 := fun k h1 h2 => by
    rw [getD_map_leadPitch]; exact hempty k h1 h2
  constructor
  · intro k hk1 hk2
    simp only [get_barwise_intervals_from_pianoroll] at hok
    split_ifs at hok
    injection hok with hcore
    rw [← hcore]
    have hklen : k < (pr.map leadPitch).length := by
      rw [List.length_map]; omega
    have hrep : (List.replicate (pr.map leadPitch).length
        (List.replicate 4 (0 : Int))).getD k [] = [0, 0, 0, 0] := by
      rw [getD_replicate _ k _ [] hklen]
      rfl
    unfold barwiseCore
    cases hfind : (pr.map leadPitch).find? (fun n => n != 0) with
    | none => exact hrep
    | some v => rw [barwiseFold_empty_getD (pr.map leadPitch) ppb b
        hempty2 k hk1 hk2 v]; exact hrep
  · intro v
    unfold barwiseFold
    rw [List.range_succ, List.foldl_append, List.foldl_cons,
      List.foldl_nil]
    exact processBar_empty_bar (pr.map leadPitch) ppb _ b hempty2

/-- The C8 witness pianoroll: pitch 60, a fully silent bar, pitch 64,
with one pixel per bar. -/
def c8_pianoroll : List (List Int) := [c6_step0, zeroRow128, c6_step1]

set_option maxRecDepth 1000000 in
/-- Witness for C8: with pixels_per_bar = 1, bar 1 of the three-step
pianoroll is empty; its interval row stays the silence sentinel and the
bar state after bar 1 equals the state before it, so step 2 encodes 64
against 60 (the major third [3, 1, 0, 0] visible in the output). -/
theorem c8_empty_bar_chaining_witness :
    (∀ k, 1 * 1 ≤ k → k < (1 + 1) * 1 →
      ([[1, 0, 0, 0], [0, 0, 0, 0], [3, 1, 0, 0]] :
        List (List Int)).getD k [] = [0, 0, 0, 0]) ∧
    (∀ v, barwiseFold (List.map leadPitch c8_pianoroll) 1 v (1 + 1)
        = barwiseFold (List.map leadPitch c8_pianoroll) 1 v 1) :=
  c8_empty_bar_chaining c8_pianoroll 1 1
    [[1, 0, 0, 0], [0, 0, 0, 0], [3, 1, 0, 0]]
    (by decide) (by decide) (by decide)
    (by
      intro k h1 h2
      have hk : k = 1 := by omega
      subst hk
      decide)
